import Mathlib

/-!
Verification of the changelist/resource reconciliation engine of the
`vscode-perforce` extension, as implemented in `src/scm/Model.ts`.

The TypeScript code is shallowly embedded: every definition below mirrors a
function of `Model.ts` (the source name is kept where Lean allows it).
External command execution (`Utils.runCommand` / `Utils.getOutputs`) is the
process boundary; its parsed output is passed to the embedded functions as an
explicit argument or as an oracle function, and the perforce server's
guarantees about that output appear as named hypotheses.  JavaScript
behaviour that the embedding has to make explicit:

* property access on `undefined` throws a `TypeError`; fallible code paths
  are therefore embedded in `Except String`;
* `Map` preserves insertion order; it is embedded as an association list
  with order-preserving `set`/`push` operations;
* `parseInt` may return `NaN`; it is embedded as `Option Int` with `none`
  standing for `NaN`;
* `String.prototype.startsWith(undefined)` coerces the argument to the
  string `"undefined"`.
-/

/-- Parsed fstat output block: the `... key value` lines of one file section,
as built by `getFstatInfoForChunk` (`Model.ts` lines 1049-1062). -/
structure FstatRecord where
  fields : List (String × String)
deriving DecidableEq

/-- Lookup of a key in a parsed fstat block; `none` plays the role of the
JavaScript `undefined` for an absent key. -/
def FstatRecord.get (r : FstatRecord) (key : String) : Option String :=
  (r.fields.find? (fun p => p.1 == key)).map (fun p => p.2)

/-- Embedding of `splitArray` (`Model.ts` lines 1004-1010): consecutive chunks
of `chunkSize` elements.  The source loops `i += chunkSize`, so `chunkSize = 0`
never terminates there; the embedding returns `[]` for that out-of-contract
value (every claim assumes `maxFilePerCommand ≥ 1`). -/
def splitArray {α : Type} (arr : List α) (chunkSize : Nat) : List (List α) :=
  if h : arr.isEmpty || chunkSize == 0 then []
  else arr.take chunkSize :: splitArray (arr.drop chunkSize) chunkSize
termination_by arr.length
decreasing_by
  simp only [Bool.or_eq_true, List.isEmpty_iff, beq_iff_eq, not_or] at h
  simp only [List.length_drop]
  exact Nat.sub_lt (List.length_pos.mpr h.1) (Nat.pos_of_ne_zero h.2)

/-- Embedding of `getFstatInfoForChunk` (`Model.ts` lines 1028-1066).  The
external command plus output parsing (lines 1039-1062) is the oracle
`run : List String → List FstatRecord` giving the parsed fstat blocks for one
chunk; the function then realigns them positionally:
`files.map(file => all.find(fs => fs["depotFile"] === file))` (line 1065). -/
def getFstatInfoForChunk (run : List String → List FstatRecord)
    (files : List String) : List (Option FstatRecord) :=
  files.map (fun file => (run files).find? (fun fs => fs.get "depotFile" == some file))

/-- Embedding of `getFstatInfoForFiles` (`Model.ts` lines 1012-1026): split
into chunks of `maxFilePerCommand`, query each chunk, and concatenate the
chunk results with `result.reduce((prev, cur) => prev.concat(cur), [])`. -/
def getFstatInfoForFiles (run : List String → List FstatRecord)
    (maxFilePerCommand : Nat) (files : List String) : List (Option FstatRecord) :=
  ((splitArray files maxFilePerCommand).map
      (fun fs => getFstatInfoForChunk run fs)).foldl
    (fun prev cur => prev ++ cur) []

/-- Contract of the perforce server for `fstat` queries: `server p` is the
parsed record for depot path `p` (or `none` when the path produces no
record, e.g. a shelved add absent from the workspace); a query for a chunk
returns exactly the records of the requested paths that exist, and every
record carries its own depot path in the `depotFile` field. -/
def FstatServerModel (server : String → Option FstatRecord)
    (run : List String → List FstatRecord) : Prop :=
  (∀ c r, r ∈ run c → ∃ p ∈ c, server p = some r) ∧
  (∀ c p, p ∈ c → ∀ r, server p = some r → r ∈ run c) ∧
  (∀ p r, server p = some r → r.get "depotFile" = some p)

theorem splitArray_join {α : Type} (n : Nat) (hn : 0 < n) :
    ∀ (arr : List α), (splitArray arr n).flatten = arr := by
  intro arr
  generalize hL : arr.length = L
  induction L using Nat.strong_induction_on generalizing arr with
  | _ L ih =>
    rw [splitArray]
    split
    · next h =>
      simp only [Bool.or_eq_true, List.isEmpty_iff, beq_iff_eq] at h
      rcases h with h | h
      · simp [h]
      · omega
    · next h =>
      simp only [Bool.or_eq_true, List.isEmpty_iff, beq_iff_eq, not_or] at h
      rw [List.flatten_cons]
      rw [ih (arr.drop n).length ?_ (arr.drop n) rfl]
      · exact List.take_append_drop n arr
      · subst hL
        simp only [List.length_drop]
        exact Nat.sub_lt (List.length_pos.mpr h.1) hn

theorem foldl_append_eq_join {α : Type} (L : List (List α)) :
    L.foldl (fun prev cur => prev ++ cur) [] = L.flatten := by
  suffices h : ∀ (acc : List α), L.foldl (fun prev cur => prev ++ cur) acc = acc ++ L.flatten by
    simpa using h []
  induction L with
  | nil => intro acc; simp
  | cons x xs ih => intro acc; simp [ih, List.append_assoc]

theorem find_record_eq_server (server : String → Option FstatRecord)
    (run : List String → List FstatRecord) (hm : FstatServerModel server run)
    (c : List String) (p : String) (hp : p ∈ c) :
    (run c).find? (fun fs => fs.get "depotFile" == some p) = server p := by
  obtain ⟨h1, h2, h3⟩ := hm
  cases hs : server p with
  | some r =>
    cases hf : (run c).find? (fun fs => fs.get "depotFile" == some p) with
    | none =>
      exfalso
      have hr : r ∈ run c := h2 c p hp r hs
      have hfr := List.find?_eq_none.mp hf r hr
      rw [h3 p r hs] at hfr
      simp at hfr
    | some fs =>
      have hmem : fs ∈ run c := List.mem_of_find?_eq_some hf
      have hpred := List.find?_some hf
      obtain ⟨q, hq, hsq⟩ := h1 c fs hmem
      have hdq := h3 q fs hsq
      simp only [hdq, beq_iff_eq, Option.some.injEq] at hpred
      subst hpred
      rw [hs] at hsq
      exact hsq.symm
  | none =>
    cases hf : (run c).find? (fun fs => fs.get "depotFile" == some p) with
    | none => rfl
    | some fs =>
      exfalso
      have hmem : fs ∈ run c := List.mem_of_find?_eq_some hf
      have hpred := List.find?_some hf
      obtain ⟨q, hq, hsq⟩ := h1 c fs hmem
      have hdq := h3 q fs hsq
      simp only [hdq, beq_iff_eq, Option.some.injEq] at hpred
      subst hpred
      rw [hs] at hsq
      exact Option.noConfusion hsq

theorem getFstatInfoForChunk_eq_map_server (server : String → Option FstatRecord)
    (run : List String → List FstatRecord) (hm : FstatServerModel server run)
    (c : List String) :
    getFstatInfoForChunk run c = c.map server := by
  unfold getFstatInfoForChunk
  apply List.map_congr_left
  intro p hp
  exact find_record_eq_server server run hm c p hp

theorem map_flatten_comm {α β : Type} (f : α → β) (L : List (List α)) :
    (L.map (fun l => l.map f)).flatten = L.flatten.map f := by
  induction L with
  | nil => rfl
  | cons x xs ih => simp only [List.map_cons, List.flatten_cons, List.map_append, ih]

/-- C1: for every requested path list and every configured
`maxFilePerCommand ≥ 1`, the chunked fstat fetch returns one entry per
requested path, positionally aligned: entry `i` is the parsed fstat record
whose `depotFile` field equals `paths[i]` (the record the server holds for
that path), or `none` when no returned record has that depot path. -/
theorem getFstatInfoForFiles_aligned (server : String → Option FstatRecord)
    (run : List String → List FstatRecord) (hm : FstatServerModel server run)
    (maxFilePerCommand : Nat) (hmax : 1 ≤ maxFilePerCommand) (paths : List String) :
    (getFstatInfoForFiles run maxFilePerCommand paths).length = paths.length ∧
    ∀ (i : Nat) (p : String), paths[i]? = some p →
      (getFstatInfoForFiles run maxFilePerCommand paths)[i]? = some (server p) := by
  have key : getFstatInfoForFiles run maxFilePerCommand paths = paths.map server := by
    unfold getFstatInfoForFiles
    rw [foldl_append_eq_join]
    have h1 : (splitArray paths maxFilePerCommand).map (fun fs => getFstatInfoForChunk run fs)
        = (splitArray paths maxFilePerCommand).map (fun fs => fs.map server) :=
      List.map_congr_left (fun c _ => getFstatInfoForChunk_eq_map_server server run hm c)
    rw [h1, map_flatten_comm, splitArray_join maxFilePerCommand hmax paths]
  constructor
  · rw [key, List.length_map]
  · intro i p hp
    rw [key, List.getElem?_map, hp]
    rfl

/-- Concrete fstat record for the chunked-fetch witness. -/
def c1record : FstatRecord :=
  ⟨[("depotFile", "//depot/a.txt"), ("clientFile", "/ws/a.txt")]⟩

/-- Concrete server for the chunked-fetch witness: exactly one depot path has
a record. -/
def c1server : String → Option FstatRecord :=
  fun p => if p = "//depot/a.txt" then some c1record else none

/-- Concrete query oracle for the witness: returns the records of the
requested paths that exist. -/
def c1run : List String → List FstatRecord := fun c => c.filterMap c1server

/-- Three paths spanning two chunks of size two, one of them recordless. -/
def c1paths : List String := ["//depot/a.txt", "//depot/missing.txt", "//depot/x.txt"]

theorem c1serverModel : FstatServerModel c1server c1run := by
  refine ⟨?_, ?_, ?_⟩
  · intro c r hr
    exact List.mem_filterMap.mp hr
  · intro c p hp r hs
    exact List.mem_filterMap.mpr ⟨p, hp, hs⟩
  · intro p r hs
    unfold c1server at hs
    split at hs
    · next h =>
      subst h
      cases hs
      rfl
    · exact Option.noConfusion hs

/-- Witness for C1 at a concrete server, oracle, chunk size and path list. -/
theorem getFstatInfoForFiles_aligned_witness :
    FstatServerModel c1server c1run ∧ 1 ≤ 2 ∧
      ((getFstatInfoForFiles c1run 2 c1paths).length = c1paths.length ∧
        ∀ (i : Nat) (p : String), c1paths[i]? = some p →
          (getFstatInfoForFiles c1run 2 c1paths)[i]? = some (c1server p)) :=
  ⟨c1serverModel, by decide,
    getFstatInfoForFiles_aligned c1server c1run c1serverModel 2 (by decide) c1paths⟩

/-- Embedding of the `Resource` objects built by `Model.ts` (constructor calls
at lines 864-873 and 923-931).  `vscode.Uri` values are kept as their path
strings; `none` stands for the JavaScript `undefined`. -/
structure Resource where
  depotPath : Option String
  underlyingUri : Option String
  change : String
  isShelved : Bool
  action : Option String
  fromFile : Option String
  headType : Option String
deriving DecidableEq

/-- One parsed line of `p4 changes` output, as produced by
`parseChangelistDescription` (`Model.ts` lines 878-895). -/
structure ChangeInfo where
  chnum : Int
  description : String
deriving DecidableEq

/-- One parsed line of `p4 describe -Ss` output, as produced by
`getDepotShelvedFilePaths` (`Model.ts` lines 969-1002). -/
structure ShelvedFileInfo where
  chnum : Int
  action : String
  path : String
deriving DecidableEq

/-- A visible source-control resource group (`SourceControlResourceGroup`). -/
structure GroupData where
  id : String
  label : String
  resourceStates : List Resource
deriving DecidableEq

/-- One value of the `_pendingGroups` map (`Model.ts` lines 47-50). -/
structure PendingEntry where
  description : String
  group : GroupData
deriving DecidableEq

/-- The group state held by the `Model` object: `_defaultGroup` and
`_pendingGroups` (a `Map`, embedded as an insertion-ordered association
list). -/
structure ModelState where
  defaultGroup : Option GroupData
  pendingGroups : List (Int × PendingEntry)
deriving DecidableEq

/-- The configuration keys `updateStatus` and `ResourceGroups` read (spec
section 6).  `none` stands for an unset key; the boolean getters coerce an
unset key to `false` the way JavaScript treats `undefined` as falsy. -/
structure ModelConfig where
  changelistOrder : Option String
  ignoredChangelistPrefixSetting : Option String
  hideNonWorkspaceFiles : Bool
  hideShelvedFilesSetting : Bool
  hideEmptyChangelists : Bool
  maxFilePerCommand : Nat
deriving DecidableEq

/-- Embedding of `getChangelistOrder` (`Model.ts` lines 718-720):
`getConfigItem("changelistOrder") ?? "descending"`. -/
def getChangelistOrder (cfg : ModelConfig) : String :=
  cfg.changelistOrder.getD "descending"

/-- Embedding of `hideShelvedFiles` (`Model.ts` lines 730-732).  The source
reads the `hideNonWorkspaceFiles` configuration key here, not the
`hideShelvedFiles` key:
`return this.getConfigItem("hideNonWorkspaceFiles");`. -/
def hideShelvedFiles (cfg : ModelConfig) : Bool :=
  cfg.hideNonWorkspaceFiles

/-- Whether `updateStatus` performs the shelved-file fetch (`Model.ts` lines
784-786): `this.hideShelvedFiles() ? [] : this.getAllShelvedResources(...)`. -/
def shelvedFetchPerformed (cfg : ModelConfig) : Bool :=
  !hideShelvedFiles cfg

/-- JavaScript `s.startsWith(p)` where `p` may be `undefined`: an undefined
argument is coerced to the string `"undefined"`. -/
def jsStartsWithOpt (s : String) (p : Option String) : Bool :=
  match p with
  | some pre => s.startsWith pre
  | none => s.startsWith "undefined"

/-- JavaScript truthiness of a possibly-undefined string (`if (prefix)` at
`Model.ts` line 780): `undefined` and the empty string are falsy. -/
def jsTruthyStr (p : Option String) : Bool :=
  match p with
  | some s => !(s == "")
  | none => false

/-- JavaScript `parseInt` on a string: skip leading whitespace, optional
sign, then leading digits; `none` stands for `NaN`. -/
def jsParseInt (s : String) : Option Int :=
  let cs := s.toList.dropWhile (fun c => c == ' ' || c == '\t' || c == '\n' || c == '\r')
  let signAndRest : Int × List Char :=
    match cs with
    | '-' :: t => (-1, t)
    | '+' :: t => (1, t)
    | t => (1, t)
  let ds := signAndRest.2.takeWhile (fun c => c.isDigit)
  if ds.isEmpty then none
  else some (signAndRest.1 * ((ds.foldl (fun acc c => acc * 10 + (c.toNat - 48)) 0 : Nat) : Int))

/-- Insertion-ordered `Map.set` followed by `push` on the entry's array:
`if (!m.has(k)) m.set(k, []); m.get(k).push(v)` (`Model.ts` lines 801-804). -/
def mapPush {κ β : Type} [BEq κ] (m : List (κ × List β)) (k : κ) (v : β) :
    List (κ × List β) :=
  match m with
  | [] => [(k, [v])]
  | (k2, vs) :: rest => if k2 == k then (k2, vs ++ [v]) :: rest else (k2, vs) :: mapPush rest k v

/-- Insertion-ordered `Map.set`: overwrite in place, or append a new key. -/
def mapSet {κ β : Type} [BEq κ] (m : List (κ × β)) (k : κ) (v : β) : List (κ × β) :=
  match m with
  | [] => [(k, v)]
  | (k2, v2) :: rest => if k2 == k then (k2, v) :: rest else (k2, v2) :: mapSet rest k v

/-- Lookup of a key's bucket, `[]` when absent. -/
def mapGet {κ β : Type} [BEq κ] (m : List (κ × List β)) (k : κ) : List β :=
  ((m.find? (fun p => p.1 == k)).map (fun p => p.2)).getD []

/-- Bucketing pass of `updateStatus` (`Model.ts` lines 795-806): resources
whose `change` starts with `"default"` go to the default list, the rest are
pushed into the pending map under `parseInt(resource.change)` (`none` is the
`NaN` key). -/
def bucketResources (rs : List Resource) :
    List Resource × List (Option Int × List Resource) :=
  rs.foldl
    (fun acc r =>
      if r.change.startsWith "default" then (acc.1 ++ [r], acc.2)
      else (acc.1, mapPush acc.2 (jsParseInt r.change) r))
    ([], [])

/-- First half of `updateStatus` (`Model.ts` lines 764-782): optional reversal
for ascending order, parse-and-drop of malformed lines, the ignored-changelist
number list, and the prefix filter.  The source reverses the raw lines before
parsing; since `reverse` commutes with per-line parsing, the embedding takes
the per-line parse results (`parsedLines[i]` is `parseChangelistDescription`
of line `i`, `none` for a non-matching line) and reverses those.  Returns the
surviving entries and the ignored chnum list. -/
def updateStatusEntries (cfg : ModelConfig) (parsedLines : List (Option ChangeInfo)) :
    List ChangeInfo × List Int :=
  let changelists :=
    if getChangelistOrder cfg == "ascending" then parsedLines.reverse else parsedLines
  let changeInfos := changelists.filterMap id
  let ignored :=
    (changeInfos.filter
        (fun c => jsStartsWithOpt c.description cfg.ignoredChangelistPrefixSetting)).map
      (fun c => c.chnum)
  let surviving :=
    if jsTruthyStr cfg.ignoredChangelistPrefixSetting then
      changeInfos.filter
        (fun c => !jsStartsWithOpt c.description cfg.ignoredChangelistPrefixSetting)
    else changeInfos
  (surviving, ignored)

/-- The empty pending group created for entry `c` (`Model.ts` lines 819-827). -/
def mkPendingGroup (c : ChangeInfo) : GroupData :=
  { id := "pending:" ++ toString c.chnum,
    label := "#" ++ toString c.chnum ++ ": " ++ c.description,
    resourceStates := [] }

/-- Functional update of the group resource states stored under key `k`
(`this._pendingGroups.get(key).group.resourceStates = value`, line 839). -/
def mapUpdateStates (m : List (Int × PendingEntry)) (k : Int) (states : List Resource) :
    List (Int × PendingEntry) :=
  m.map (fun p =>
    if p.1 == k then
      (p.1, ⟨p.2.description, ⟨p.2.group.id, p.2.group.label, states⟩⟩)
    else p)

/-- The key string used in the orphan diagnostic (`key.toString()`); the `NaN`
key prints as `"NaN"`. -/
def jsKeyToString (k : Option Int) : String :=
  match k with
  | some n => toString n
  | none => "NaN"

/-- The orphan-changelist diagnostic of `Model.ts` line 841. -/
def orphanMsg (k : Option Int) : String :=
  "ERROR: pending changelist not found: " ++ jsKeyToString k

/-- One iteration of the `pendings.forEach` loop at `Model.ts` lines 836-843:
attach the bucket to the matching pending group, silently drop it when its
chnum is on the ignored list, or log the orphan diagnostic. -/
def applyPendingStep (ignored : List Int)
    (acc : List (Int × PendingEntry) × List String)
    (kv : Option Int × List Resource) : List (Int × PendingEntry) × List String :=
  match kv.1 with
  | some k =>
      if acc.1.any (fun p => p.1 == k) then (mapUpdateStates acc.1 k kv.2, acc.2)
      else if ignored.contains k then acc
      else (acc.1, acc.2 ++ [orphanMsg (some k)])
  | none => (acc.1, acc.2 ++ [orphanMsg none])

/-- Final pass of `updateStatus` (`Model.ts` lines 836-843): the
`pendings.forEach` loop over all buckets. -/
def applyPendings (pg : List (Int × PendingEntry)) (ignored : List Int)
    (pendings : List (Option Int × List Resource)) :
    List (Int × PendingEntry) × List String :=
  pendings.foldl (applyPendingStep ignored) (pg, [])

/-- Embedding of `updateStatus` (`Model.ts` lines 744-846) from the point
where all query results are available: bucket the concatenation of shelved and
open resources, rebuild the default group, create one empty pending group per
surviving entry, then attach buckets / log orphans.  Returns the new model
state and the logged diagnostics.  The resource lists are the (hole-free)
outputs of the shelved and opened resource builders. -/
def updateStatusModel (cfg : ModelConfig) (parsedLines : List (Option ChangeInfo))
    (shelvedResources openResources : List Resource) : ModelState × List String :=
  let es := updateStatusEntries cfg parsedLines
  let allResources := shelvedResources ++ openResources
  let b := bucketResources allResources
  let dg : GroupData := ⟨"default", "Default Changelist", b.1⟩
  let pg0 := es.1.foldl (fun m c => mapSet m c.chnum ⟨c.description, mkPendingGroup c⟩) []
  let ap := applyPendings pg0 es.2 b.2
  (⟨some dg, ap.1⟩, ap.2)

/-- Embedding of the `ResourceGroups` getter (`Model.ts` lines 59-79),
returning both the group list it produces and the groups it disposes as a
side effect: with `hideEmptyChangelists` set, an empty pending group is
disposed instead of being included. -/
def ResourceGroupsRead (hideEmpty : Bool) (s : ModelState) :
    List GroupData × List GroupData :=
  let base : List GroupData :=
    match s.defaultGroup with
    | some g => [g]
    | none => []
  s.pendingGroups.foldl
    (fun acc p =>
      if hideEmpty && p.2.group.resourceStates.length == 0 then (acc.1, acc.2 ++ [p.2.group])
      else (acc.1 ++ [p.2.group], acc.2))
    (base, [])

/-- The group list the provider exposes. -/
def ResourceGroups (hideEmpty : Bool) (s : ModelState) : List GroupData :=
  (ResourceGroupsRead hideEmpty s).1

/-- The groups the getter disposes while being read. -/
def disposedOnRead (hideEmpty : Bool) (s : ModelState) : List GroupData :=
  (ResourceGroupsRead hideEmpty s).2

/-- Embedding of `getShelvedResources` (`Model.ts` lines 904-934), taking the
already-fetched positional fstat results (`getFstatInfoForFiles` output).  The
source pairs `fstatInfo[i]` with `files[i]`; the fetch guarantees equal
lengths (theorem `getFstatInfoForFiles_aligned`), so the positional pairing is
a `zip`.  An absent record (shelved add with no working-copy file) is guarded
by `if (info)` and yields a resource without a local uri; the builder never
throws. -/
def getShelvedResources (files : List ShelvedFileInfo)
    (fstatInfo : List (Option FstatRecord)) : List Resource :=
  (fstatInfo.zip files).map
    (fun p =>
      { depotPath := some p.2.path,
        underlyingUri := p.1.bind (fun r => r.get "clientFile"),
        change := toString p.2.chnum,
        isShelved := true,
        action := some p.2.action,
        fromFile := p.1.bind (fun r => r.get "resolveFromFile0"),
        headType := none })

/-- Embedding of `getResourceFromFileInfo` (`Model.ts` lines 848-876).  The
source immediately reads `info["clientFile"]`; when `info` is `undefined`
(a hole in the fstat result) that property access throws a `TypeError`,
embedded as `Except.error`.  With `hideNonWorkspaceFiles` set, a file outside
every workspace folder yields no resource (`Except.ok none`, the JavaScript
`undefined` return).  `inWorkspace` is the `workspace.getWorkspaceFolder`
oracle. -/
def getResourceFromFileInfo (hideNonWS : Bool) (inWorkspace : Option String → Bool)
    (info : Option FstatRecord) : Except String (Option Resource) :=
  match info with
  | none => Except.error "TypeError: cannot read clientFile of undefined"
  | some r =>
      if hideNonWS && !inWorkspace (r.get "clientFile") then Except.ok none
      else
        Except.ok (some
          { depotPath := r.get "depotFile",
            underlyingUri := r.get "clientFile",
            change := (r.get "change").getD "",
            isShelved := false,
            action := r.get "action",
            fromFile := r.get "resolveFromFile0",
            headType := r.get "headType" })

/-- Embedding of `getDepotOpenedResources` (`Model.ts` lines 936-943), from
the point where the fstat results are available:
`fstatInfo.map(info => this.getResourceFromFileInfo(info))`.  A thrown
`TypeError` in the callback aborts the whole `map`, so the elements are
sequenced in `Except`.  The JavaScript result keeps `undefined` entries for
filtered-out files, hence `List (Option Resource)`. -/
def getDepotOpenedResources (hideNonWS : Bool) (inWorkspace : Option String → Bool) :
    List (Option FstatRecord) → Except String (List (Option Resource))
  | [] => Except.ok []
  | info :: rest =>
      match getResourceFromFileInfo hideNonWS inWorkspace info with
      | Except.error e => Except.error e
      | Except.ok r =>
          match getDepotOpenedResources hideNonWS inWorkspace rest with
          | Except.error e => Except.error e
          | Except.ok rs => Except.ok (r :: rs)

/-- The data a refresh needs from the external commands: parsed pending
changelist lines, shelved resources and opened resources. -/
structure RefreshData where
  parsedLines : List (Option ChangeInfo)
  shelvedResources : List Resource
  openResources : List Resource

/-- Embedding of `clean` (`Model.ts` lines 670-680): dispose the default
group, dispose and clear every pending group. -/
def cleanState (s : ModelState) : ModelState :=
  ⟨none, []⟩

/-- Embedding of `Refresh` (`Model.ts` lines 109-133): `clean()` runs first,
before any external command; then `updateInfo` and `updateStatus` run.  The
combined outcome of the external commands is `outcome`: a rejection at any
point leaves the state as `clean` left it, a success rebuilds the groups via
`updateStatus`. -/
def RefreshModel (cfg : ModelConfig) (outcome : Except String RefreshData)
    (s : ModelState) : ModelState :=
  let s1 := cleanState s
  match outcome with
  | Except.error _ => s1
  | Except.ok d =>
      (updateStatusModel cfg d.parsedLines d.shelvedResources d.openResources).1

/-- JavaScript `id.substr(id.indexOf(":") + 1)` (`Model.ts` line 495 and
friends): everything after the first colon, or the whole string when there is
no colon (`indexOf` returns `-1`, so `substr(0)`). -/
def jsExtractChnum (id : String) : String :=
  match id.toList.findIdx? (fun c => c == ':') with
  | some i => String.mk (id.toList.drop (i + 1))
  | none => id

/-- One external command invocation: name and argument string. -/
structure P4Command where
  command : String
  args : String
deriving DecidableEq

/-- Embedding of `ShelveChangelist` (`Model.ts` lines 490-514): the default
guard throws before the `try` block; otherwise the shelve command runs,
followed by the revert when requested.  Command failures inside the `try` are
caught and displayed, so the value records the commands issued on the success
path; the trailing `Refresh` is modelled separately by `RefreshModel`. -/
def ShelveChangelist (id : String) (revert : Bool) : Except String (List P4Command) :=
  let chnum := jsExtractChnum id
  if chnum == "default" then Except.error "Cannot shelve the default changelist"
  else
    Except.ok
      ([⟨"shelve", "-f -c " ++ chnum⟩] ++
        (if revert then [⟨"revert", "-c " ++ chnum ++ " //..."⟩] else []))

/-- Embedding of `UnshelveChangelist` (`Model.ts` lines 516-534). -/
def UnshelveChangelist (id : String) : Except String (List P4Command) :=
  let chnum := jsExtractChnum id
  if chnum == "default" then Except.error "Cannot unshelve the default changelist"
  else Except.ok [⟨"unshelve", "-f -s " ++ chnum ++ " -c " ++ chnum⟩]

/-- Embedding of `DeleteShelvedChangelist` (`Model.ts` lines 536-567): the
default guard throws first; then a modal confirmation gates the command. -/
def DeleteShelvedChangelist (id : String) (userConfirms : Bool) :
    Except String (List P4Command) :=
  let chnum := jsExtractChnum id
  if chnum == "default" then
    Except.error "Cannot delete shelved files from the default changelist"
  else if userConfirms then Except.ok [⟨"shelve", "-d -c " ++ chnum⟩]
  else Except.ok []

theorem mapGet_nil {κ β : Type} [BEq κ] (k : κ) : mapGet ([] : List (κ × List β)) k = [] :=
  rfl

theorem mapGet_cons {κ β : Type} [BEq κ] (k2 : κ) (vs : List β)
    (rest : List (κ × List β)) (k : κ) :
    mapGet ((k2, vs) :: rest) k = if k2 == k then vs else mapGet rest k := by
  by_cases h : k2 == k
  · simp [mapGet, List.find?_cons_of_pos, h]
  · simp only [Bool.not_eq_true] at h
    simp [mapGet, List.find?_cons_of_neg, h]

theorem mapGet_mapPush_self {κ β : Type} [BEq κ] [LawfulBEq κ]
    (m : List (κ × List β)) (k : κ) (v : β) :
    mapGet (mapPush m k v) k = mapGet m k ++ [v] := by
  induction m with
  | nil => simp [mapPush, mapGet_cons, mapGet_nil]
  | cons x xs ih =>
    obtain ⟨k2, vs⟩ := x
    unfold mapPush
    by_cases h : k2 == k
    · simp only [h, if_pos]
      rw [mapGet_cons, mapGet_cons, if_pos h, if_pos h]
    · simp only [h, Bool.false_eq_true, if_neg, ite_false]
      rw [mapGet_cons, mapGet_cons, if_neg, if_neg, ih]
      · simp [h]
      · simp [h]

theorem mapGet_mapPush_ne {κ β : Type} [BEq κ] [LawfulBEq κ]
    (m : List (κ × List β)) (k2 k : κ) (v : β) (hne : k2 ≠ k) :
    mapGet (mapPush m k2 v) k = mapGet m k := by
  induction m with
  | nil =>
    simp [mapPush, mapGet_cons, mapGet_nil]
    intro h
    exact absurd h hne
  | cons x xs ih =>
    obtain ⟨k3, vs⟩ := x
    unfold mapPush
    by_cases h : k3 == k2
    · simp only [h, if_pos]
      rw [mapGet_cons, mapGet_cons]
      have hk : (k3 == k) = false := by
        have h3 : k3 = k2 := eq_of_beq h
        subst h3
        simp [hne]
      simp [hk]
    · simp only [h, Bool.false_eq_true, if_neg, ite_false]
      rw [mapGet_cons, mapGet_cons, ih]

theorem mem_keys_mapPush {κ β : Type} [BEq κ] [LawfulBEq κ]
    (m : List (κ × List β)) (k k2 : κ) (v : β) :
    k2 ∈ (mapPush m k v).map (fun p => p.1) ↔ k2 ∈ m.map (fun p => p.1) ∨ k2 = k := by
  induction m with
  | nil => simp [mapPush]
  | cons x xs ih =>
    obtain ⟨k3, vs⟩ := x
    unfold mapPush
    by_cases h : k3 == k
    · simp only [h, if_pos, List.map_cons, List.mem_cons]
      have h3 : k3 = k := eq_of_beq h
      subst h3
      tauto
    · simp only [h, Bool.false_eq_true, if_neg, ite_false, List.map_cons, List.mem_cons, ih]
      tauto

theorem nodup_keys_mapPush {κ β : Type} [BEq κ] [LawfulBEq κ]
    (m : List (κ × List β)) (k : κ) (v : β)
    (hnod : (m.map (fun p => p.1)).Nodup) :
    ((mapPush m k v).map (fun p => p.1)).Nodup := by
  induction m with
  | nil => simp [mapPush]
  | cons x xs ih =>
    obtain ⟨k3, vs⟩ := x
    simp only [List.map_cons, List.nodup_cons] at hnod
    unfold mapPush
    by_cases h : k3 == k
    · simp only [h, if_pos, List.map_cons, List.nodup_cons]
      exact hnod
    · simp only [h, Bool.false_eq_true, if_neg, ite_false, List.map_cons, List.nodup_cons]
      refine ⟨?_, ih hnod.2⟩
      rw [mem_keys_mapPush]
      rintro (hmem | hmem)
      · exact hnod.1 hmem
      · subst hmem
        simp at h

theorem bucketResources_default (rs : List Resource) :
    (bucketResources rs).1 = rs.filter (fun r => r.change.startsWith "default") := by
  suffices h : ∀ (l : List Resource) (d : List Resource) (m : List (Option Int × List Resource)),
      (l.foldl (fun acc r =>
          if r.change.startsWith "default" then (acc.1 ++ [r], acc.2)
          else (acc.1, mapPush acc.2 (jsParseInt r.change) r)) (d, m)).1
        = d ++ l.filter (fun r => r.change.startsWith "default") by
    simpa using h rs [] []
  intro l
  induction l with
  | nil => intro d m; simp
  | cons r rest ih =>
    intro d m
    by_cases hr : r.change.startsWith "default"
    · simp only [List.foldl_cons, hr, if_pos, List.filter_cons, ite_true]
      rw [ih]
      simp
    · simp only [List.foldl_cons, hr, Bool.false_eq_true, if_neg, ite_false,
        List.filter_cons]
      rw [ih]

theorem bucketResources_get (rs : List Resource) (k : Option Int) :
    mapGet (bucketResources rs).2 k
      = rs.filter (fun r => !r.change.startsWith "default" && (jsParseInt r.change == k)) := by
  suffices h : ∀ (l : List Resource) (d : List Resource) (m : List (Option Int × List Resource)),
      mapGet (l.foldl (fun acc r =>
          if r.change.startsWith "default" then (acc.1 ++ [r], acc.2)
          else (acc.1, mapPush acc.2 (jsParseInt r.change) r)) (d, m)).2 k
        = mapGet m k
            ++ l.filter (fun r => !r.change.startsWith "default" && (jsParseInt r.change == k)) by
    simpa [mapGet_nil] using h rs [] []
  intro l
  induction l with
  | nil => intro d m; simp
  | cons r rest ih =>
    intro d m
    by_cases hr : r.change.startsWith "default"
    · simp only [List.foldl_cons, hr, if_pos, List.filter_cons, Bool.not_true,
        Bool.false_and, ite_false]
      rw [ih]
      simp
    · simp only [List.foldl_cons, hr, Bool.false_eq_true, if_neg, ite_false,
        List.filter_cons, Bool.not_false, Bool.true_and]
      by_cases hk : jsParseInt r.change == k
      · have hk2 : jsParseInt r.change = k := eq_of_beq hk
        simp only [hk, ite_true]
        rw [ih, ← hk2, mapGet_mapPush_self]
        simp
      · simp only [hk, Bool.false_eq_true, ite_false]
        rw [ih, mapGet_mapPush_ne]
        intro heq
        rw [heq] at hk
        simp at hk

theorem bucketResources_keys_nodup (rs : List Resource) :
    ((bucketResources rs).2.map (fun p => p.1)).Nodup := by
  suffices h : ∀ (l : List Resource) (d : List Resource) (m : List (Option Int × List Resource)),
      (m.map (fun p => p.1)).Nodup →
      ((l.foldl (fun acc r =>
          if r.change.startsWith "default" then (acc.1 ++ [r], acc.2)
          else (acc.1, mapPush acc.2 (jsParseInt r.change) r)) (d, m)).2.map
        (fun p => p.1)).Nodup by
    exact h rs [] [] (by simp)
  intro l
  induction l with
  | nil => intro d m hm; simpa using hm
  | cons r rest ih =>
    intro d m hm
    by_cases hr : r.change.startsWith "default"
    · simp only [List.foldl_cons, hr, if_pos]
      exact ih (d ++ [r]) m hm
    · simp only [List.foldl_cons, hr, Bool.false_eq_true, if_neg, ite_false]
      exact ih d _ (nodup_keys_mapPush m (jsParseInt r.change) r hm)

theorem mem_keys_bucketResources (rs : List Resource) (k : Option Int) :
    k ∈ (bucketResources rs).2.map (fun p => p.1)
      ↔ ∃ r ∈ rs, (!r.change.startsWith "default" && (jsParseInt r.change == k)) = true := by
  suffices h : ∀ (l : List Resource) (d : List Resource) (m : List (Option Int × List Resource)),
      (k ∈ (l.foldl (fun acc r =>
          if r.change.startsWith "default" then (acc.1 ++ [r], acc.2)
          else (acc.1, mapPush acc.2 (jsParseInt r.change) r)) (d, m)).2.map (fun p => p.1)
        ↔ k ∈ m.map (fun p => p.1)
          ∨ ∃ r ∈ l, (!r.change.startsWith "default" && (jsParseInt r.change == k)) = true) by
    have h2 := h rs [] []
    simpa using h2
  intro l
  induction l with
  | nil => intro d m; simp
  | cons r rest ih =>
    intro d m
    by_cases hr : r.change.startsWith "default"
    · simp only [List.foldl_cons, hr, if_pos]
      rw [ih]
      simp only [List.mem_cons, hr, Bool.not_true, Bool.false_and]
      constructor
      · rintro (h | ⟨r2, hr2, hp⟩)
        · exact Or.inl h
        · exact Or.inr ⟨r2, Or.inr hr2, hp⟩
      · rintro (h | ⟨r2, hr2 | hr2, hp⟩)
        · exact Or.inl h
        · subst hr2
          simp [hr] at hp
        · exact Or.inr ⟨r2, hr2, hp⟩
    · simp only [List.foldl_cons, hr, Bool.false_eq_true, if_neg, ite_false]
      rw [ih]
      simp only [List.mem_cons]
      constructor
      · rintro (h | ⟨r2, hr2, hp⟩)
        · rw [mem_keys_mapPush] at h
          rcases h with h | h
          · exact Or.inl h
          · refine Or.inr ⟨r, Or.inl rfl, ?_⟩
            simp [hr, h]
        · exact Or.inr ⟨r2, Or.inr hr2, hp⟩
      · rintro (h | ⟨r2, hr2 | hr2, hp⟩)
        · exact Or.inl ((mem_keys_mapPush m (jsParseInt r.change) k r).mpr (Or.inl h))
        · subst hr2
          simp only [hr, Bool.not_false, Bool.true_and, beq_iff_eq] at hp
          exact Or.inl ((mem_keys_mapPush m (jsParseInt r2.change) k r2).mpr (Or.inr hp.symm))
        · exact Or.inr ⟨r2, hr2, hp⟩

theorem mapSet_append_of_not_mem {κ β : Type} [BEq κ] [LawfulBEq κ]
    (m : List (κ × β)) (k : κ) (v : β) (h : k ∉ m.map (fun p => p.1)) :
    mapSet m k v = m ++ [(k, v)] := by
  induction m with
  | nil => rfl
  | cons x xs ih =>
    simp only [List.map_cons, List.mem_cons, not_or] at h
    obtain ⟨k2, v2⟩ := x
    unfold mapSet
    have hne : (k2 == k) = false := by
      rw [beq_eq_false_iff_ne]
      exact fun hh => h.1 hh.symm
    rw [hne]
    simp only [Bool.false_eq_true, if_neg, ite_false, List.cons_append, List.cons.injEq, true_and]
    exact ih h.2

theorem foldl_mapSet_eq_map {α κ β : Type} [BEq κ] [LawfulBEq κ]
    (f : α → κ × β) (l : List α) (hnod : (l.map (fun a => (f a).1)).Nodup) :
    l.foldl (fun m a => mapSet m (f a).1 (f a).2) [] = l.map f := by
  suffices h : ∀ (l : List α) (acc : List (κ × β)),
      (l.map (fun a => (f a).1)).Nodup →
      (∀ a ∈ l, (f a).1 ∉ acc.map (fun p => p.1)) →
      l.foldl (fun m a => mapSet m (f a).1 (f a).2) acc = acc ++ l.map f by
    simpa using h l [] hnod (by simp)
  intro l
  induction l with
  | nil => intro acc _ _; simp
  | cons a rest ih =>
    intro acc hnod hdisj
    simp only [List.map_cons, List.nodup_cons] at hnod
    have hset : mapSet acc (f a).1 (f a).2 = acc ++ [f a] :=
      mapSet_append_of_not_mem acc (f a).1 (f a).2 (hdisj a (List.mem_cons_self a rest))
    simp only [List.foldl_cons, hset]
    rw [ih (acc ++ [f a]) hnod.2 ?_]
    · simp
    · intro b hb
      simp only [List.map_append, List.mem_append, List.map_cons, List.map_nil,
        List.mem_singleton, not_or]
      refine ⟨hdisj b (List.mem_cons_of_mem a hb), ?_⟩
      intro heq
      exact hnod.1 (heq ▸ List.mem_map_of_mem (fun x => (f x).1) hb)

theorem assoc_find_of_nodup {κ β : Type} [BEq κ] [LawfulBEq κ]
    (m : List (κ × β)) (hnod : (m.map (fun p => p.1)).Nodup)
    (k : κ) (v : β) (hmem : (k, v) ∈ m) :
    m.find? (fun p => p.1 == k) = some (k, v) := by
  induction m with
  | nil => cases hmem
  | cons x xs ih =>
    simp only [List.map_cons, List.nodup_cons] at hnod
    rcases List.mem_cons.mp hmem with h | h
    · subst h
      simp [List.find?_cons_of_pos]
    · have hx : (x.1 == k) = false := by
        rw [beq_eq_false_iff_ne]
        intro heq
        apply hnod.1
        rw [heq]
        exact List.mem_map_of_mem (fun p => p.1) h
      rw [List.find?_cons_of_neg _ (by simp [hx])]
      exact ih hnod.2 h

theorem assoc_mem_of_key_mem {κ β : Type} [BEq κ] [LawfulBEq κ]
    (m : List (κ × List β)) (k : κ) (hmem : k ∈ m.map (fun p => p.1)) :
    (k, mapGet m k) ∈ m := by
  induction m with
  | nil => cases hmem
  | cons x xs ih =>
    obtain ⟨k2, vs⟩ := x
    rw [mapGet_cons]
    by_cases h : k2 == k
    · have h2 : k2 = k := eq_of_beq h
      subst h2
      simp [h]
    · simp only [h, Bool.false_eq_true, if_neg, ite_false]
      simp only [List.map_cons, List.mem_cons] at hmem
      rcases hmem with hmem | hmem
      · exfalso
        rw [hmem] at h
        simp at h
      · exact List.mem_cons_of_mem _ (ih hmem)

/-- Resource states stored for chnum `k` by the pending-group map, `none` when
no group with that chnum exists. -/
def pgStatesAt (m : List (Int × PendingEntry)) (k : Int) : Option (List Resource) :=
  (m.find? (fun p => p.1 == k)).map (fun p => p.2.group.resourceStates)

/-- Projection of a pending-group entry to everything except its resource
states: key, description, group id, group label. -/
def pgSkeleton (p : Int × PendingEntry) : Int × String × String × String :=
  (p.1, p.2.description, p.2.group.id, p.2.group.label)

theorem mapUpdateStates_skeleton (m : List (Int × PendingEntry)) (k : Int)
    (states : List Resource) :
    (mapUpdateStates m k states).map pgSkeleton = m.map pgSkeleton := by
  unfold mapUpdateStates
  rw [List.map_map]
  apply List.map_congr_left
  intro p hp
  by_cases h : p.1 = k <;> simp [pgSkeleton, h]

theorem mapUpdateStates_keys (m : List (Int × PendingEntry)) (k : Int)
    (states : List Resource) :
    (mapUpdateStates m k states).map (fun p => p.1) = m.map (fun p => p.1) := by
  unfold mapUpdateStates
  rw [List.map_map]
  apply List.map_congr_left
  intro p hp
  by_cases h : p.1 = k <;> simp [h]

theorem pgStatesAt_mapUpdateStates_self (m : List (Int × PendingEntry)) (k : Int)
    (states : List Resource) (hmem : k ∈ m.map (fun p => p.1)) :
    pgStatesAt (mapUpdateStates m k states) k = some states := by
  induction m with
  | nil => cases hmem
  | cons x xs ih =>
    by_cases h : x.1 == k
    · unfold pgStatesAt mapUpdateStates
      simp only [List.map_cons, h, ite_true]
      rw [List.find?_cons_of_pos _ (by simp [h])]
      rfl
    · unfold pgStatesAt mapUpdateStates
      simp only [List.map_cons, h, Bool.false_eq_true, ite_false]
      rw [List.find?_cons_of_neg _ (by simp [h])]
      simp only [List.map_cons, List.mem_cons] at hmem
      rcases hmem with hmem | hmem
      · exfalso
        rw [hmem] at h
        simp at h
      · exact ih hmem

theorem pgStatesAt_mapUpdateStates_ne (m : List (Int × PendingEntry)) (k2 k : Int)
    (states : List Resource) (hne : k2 ≠ k) :
    pgStatesAt (mapUpdateStates m k2 states) k = pgStatesAt m k := by
  induction m with
  | nil => rfl
  | cons x xs ih =>
    unfold pgStatesAt mapUpdateStates
    simp only [List.map_cons]
    by_cases h : x.1 = k2
    · rw [if_pos (by simp [h])]
      rw [List.find?_cons_of_neg _ (by simp [h, hne]),
        List.find?_cons_of_neg _ (by simp [h, hne])]
      exact ih
    · rw [if_neg (by simp [h])]
      by_cases hk : x.1 = k
      · rw [List.find?_cons_of_pos _ (by simp [hk]), List.find?_cons_of_pos _ (by simp [hk])]
      · rw [List.find?_cons_of_neg _ (by simp [hk]), List.find?_cons_of_neg _ (by simp [hk])]
        exact ih

theorem pgStatesAt_eq_none_iff (m : List (Int × PendingEntry)) (k : Int) :
    pgStatesAt m k = none ↔ k ∉ m.map (fun p => p.1) := by
  unfold pgStatesAt
  rw [Option.map_eq_none', List.find?_eq_none]
  simp only [beq_iff_eq, List.mem_map]
  constructor
  · rintro h ⟨p, hp, hk⟩
    exact h p hp hk
  · intro h p hp hk
    exact h ⟨p, hp, hk⟩

theorem applyPendings_shift (ignored : List Int) :
    ∀ (bs : List (Option Int × List Resource)) (pg : List (Int × PendingEntry))
      (ls : List String),
      bs.foldl (applyPendingStep ignored) (pg, ls)
        = ((applyPendings pg ignored bs).1, ls ++ (applyPendings pg ignored bs).2) := by
  intro bs
  induction bs with
  | nil => intro pg ls; simp [applyPendings]
  | cons kv bs ih =>
    intro pg ls
    have hstep : ∀ (ls2 : List String),
        applyPendingStep ignored (pg, ls2) kv
          = ((applyPendingStep ignored (pg, []) kv).1,
              ls2 ++ (applyPendingStep ignored (pg, []) kv).2) := by
      intro ls2
      rcases kv with ⟨key, vs⟩
      cases key with
      | none => simp [applyPendingStep]
      | some k =>
        by_cases h1 : pg.any (fun p => p.1 == k)
        · simp [applyPendingStep, h1]
        · by_cases h2 : k ∈ ignored
          · simp [applyPendingStep, h1, h2]
          · simp [applyPendingStep, h1, h2]
    rcases hs1 : applyPendingStep ignored (pg, []) kv with ⟨pg2, l2⟩
    simp only [applyPendings, List.foldl_cons, hstep ls, hs1]
    rw [ih pg2 (ls ++ l2), ih pg2 l2]
    simp only [List.append_assoc]

theorem applyPendings_cons (pg : List (Int × PendingEntry)) (ignored : List Int)
    (kv : Option Int × List Resource) (bs : List (Option Int × List Resource)) :
    applyPendings pg ignored (kv :: bs)
      = ((applyPendings (applyPendingStep ignored (pg, []) kv).1 ignored bs).1,
          (applyPendingStep ignored (pg, []) kv).2
            ++ (applyPendings (applyPendingStep ignored (pg, []) kv).1 ignored bs).2) := by
  rcases hs1 : applyPendingStep ignored (pg, []) kv with ⟨pg2, l2⟩
  show (kv :: bs).foldl (applyPendingStep ignored) (pg, []) = _
  rw [List.foldl_cons, hs1, applyPendings_shift ignored bs pg2 l2]

theorem applyPendingStep_keys (ignored : List Int) (pg : List (Int × PendingEntry))
    (ls : List String) (kv : Option Int × List Resource) :
    (applyPendingStep ignored (pg, ls) kv).1.map (fun p => p.1)
      = pg.map (fun p => p.1) := by
  rcases kv with ⟨key, vs⟩
  cases key with
  | none => rfl
  | some k =>
    by_cases h1 : pg.any (fun p => p.1 == k)
    · simp [applyPendingStep, h1, mapUpdateStates_keys]
    · by_cases h2 : k ∈ ignored
      · simp [applyPendingStep, h1, h2]
      · simp [applyPendingStep, h1, h2]

theorem applyPendingStep_skeleton (ignored : List Int) (pg : List (Int × PendingEntry))
    (ls : List String) (kv : Option Int × List Resource) :
    (applyPendingStep ignored (pg, ls) kv).1.map pgSkeleton = pg.map pgSkeleton := by
  rcases kv with ⟨key, vs⟩
  cases key with
  | none => rfl
  | some k =>
    by_cases h1 : pg.any (fun p => p.1 == k)
    · simp [applyPendingStep, h1, mapUpdateStates_skeleton]
    · by_cases h2 : k ∈ ignored
      · simp [applyPendingStep, h1, h2]
      · simp [applyPendingStep, h1, h2]

theorem applyPendings_skeleton (ignored : List Int) :
    ∀ (bs : List (Option Int × List Resource)) (pg : List (Int × PendingEntry)),
      (applyPendings pg ignored bs).1.map pgSkeleton = pg.map pgSkeleton := by
  intro bs
  induction bs with
  | nil => intro pg; rfl
  | cons kv bs ih =>
    intro pg
    rw [applyPendings_cons]
    dsimp only
    rw [ih, applyPendingStep_skeleton]

theorem applyPendings_keys (ignored : List Int) :
    ∀ (bs : List (Option Int × List Resource)) (pg : List (Int × PendingEntry)),
      (applyPendings pg ignored bs).1.map (fun p => p.1) = pg.map (fun p => p.1) := by
  intro bs
  induction bs with
  | nil => intro pg; rfl
  | cons kv bs ih =>
    intro pg
    rw [applyPendings_cons]
    dsimp only
    rw [ih, applyPendingStep_keys]

theorem applyPendings_statesAt_of_not_mem (ignored : List Int) (k : Int) :
    ∀ (bs : List (Option Int × List Resource)) (pg : List (Int × PendingEntry)),
      (some k) ∉ bs.map (fun q => q.1) →
      pgStatesAt (applyPendings pg ignored bs).1 k = pgStatesAt pg k := by
  intro bs
  induction bs with
  | nil => intro pg _; rfl
  | cons kv bs ih =>
    intro pg hk
    simp only [List.map_cons, List.mem_cons, not_or] at hk
    rw [applyPendings_cons]
    dsimp only
    rw [ih _ hk.2]
    rcases kv with ⟨key, vs⟩
    cases key with
    | none => rfl
    | some k2 =>
      have hne : k2 ≠ k := by
        intro h
        exact hk.1 (by rw [h])
      by_cases h1 : pg.any (fun p => p.1 == k2)
      · simp only [applyPendingStep, h1, if_pos]
        exact pgStatesAt_mapUpdateStates_ne pg k2 k vs hne
      · by_cases h2 : k2 ∈ ignored
        · simp [applyPendingStep, h1, h2]
        · simp [applyPendingStep, h1, h2]

theorem applyPendings_statesAt_of_mem (ignored : List Int) (k : Int) (vs : List Resource) :
    ∀ (bs : List (Option Int × List Resource)) (pg : List (Int × PendingEntry)),
      (bs.map (fun q => q.1)).Nodup →
      (some k, vs) ∈ bs →
      k ∈ pg.map (fun p => p.1) →
      pgStatesAt (applyPendings pg ignored bs).1 k = some vs := by
  intro bs
  induction bs with
  | nil => intro pg _ hmem _; cases hmem
  | cons kv bs ih =>
    intro pg hnod hmem hkey
    simp only [List.map_cons, List.nodup_cons] at hnod
    rcases List.mem_cons.mp hmem with h | h
    · subst h
      rw [applyPendings_cons]
      dsimp only
      have hany : pg.any (fun p => p.1 == k) = true := by
        rw [List.any_eq_true]
        obtain ⟨p, hp, hpk⟩ := List.mem_map.mp hkey
        exact ⟨p, hp, by simp [hpk]⟩
      simp only [applyPendingStep, hany, if_pos]
      rw [applyPendings_statesAt_of_not_mem ignored k bs _ hnod.1]
      exact pgStatesAt_mapUpdateStates_self pg k vs hkey
    · rw [applyPendings_cons]
      dsimp only
      apply ih _ hnod.2 h
      rw [applyPendingStep_keys]
      exact hkey

/-- The bucket keys for which the `pendings.forEach` loop emits the orphan
diagnostic: neither a surviving pending-group key nor an ignored chnum (the
`NaN` key always logs). -/
def orphanKeys (pgKeys ignored : List Int) (bucketKeys : List (Option Int)) :
    List (Option Int) :=
  bucketKeys.filter
    (fun key =>
      match key with
      | some k => !pgKeys.any (fun x => x == k) && !ignored.contains k
      | none => true)

theorem applyPendings_logs (ignored : List Int) :
    ∀ (bs : List (Option Int × List Resource)) (pg : List (Int × PendingEntry)),
      (applyPendings pg ignored bs).2
        = (orphanKeys (pg.map (fun p => p.1)) ignored (bs.map (fun q => q.1))).map
            orphanMsg := by
  intro bs
  induction bs with
  | nil => intro pg; rfl
  | cons kv bs ih =>
    intro pg
    rw [applyPendings_cons]
    dsimp only
    rw [ih, applyPendingStep_keys]
    rcases kv with ⟨key, vs⟩
    cases key with
    | none => simp [applyPendingStep, orphanKeys]
    | some k =>
      have hany : (pg.map (fun p => p.1)).any (fun x => x == k)
          = pg.any (fun p => p.1 == k) := by
        clear ih
        induction pg with
        | nil => rfl
        | cons p ps ihp => simp only [List.map_cons, List.any_cons, ihp]
      by_cases h1 : pg.any (fun p => p.1 == k)
      · simp [applyPendingStep, h1, orphanKeys, hany]
      · by_cases h2 : k ∈ ignored
        · simp [applyPendingStep, h1, h2, orphanKeys, hany]
        · simp [applyPendingStep, h1, h2, orphanKeys, hany]

theorem updateStatusModel_eq (cfg : ModelConfig) (parsedLines : List (Option ChangeInfo))
    (shelved opened : List Resource) :
    updateStatusModel cfg parsedLines shelved opened
      = (⟨some ⟨"default", "Default Changelist", (bucketResources (shelved ++ opened)).1⟩,
          (applyPendings
            ((updateStatusEntries cfg parsedLines).1.foldl
              (fun m c => mapSet m c.chnum ⟨c.description, mkPendingGroup c⟩) [])
            (updateStatusEntries cfg parsedLines).2
            (bucketResources (shelved ++ opened)).2).1⟩,
        (applyPendings
            ((updateStatusEntries cfg parsedLines).1.foldl
              (fun m c => mapSet m c.chnum ⟨c.description, mkPendingGroup c⟩) [])
            (updateStatusEntries cfg parsedLines).2
            (bucketResources (shelved ++ opened)).2).2) := rfl

theorem entries_foldl_mapSet_eq_map (entries : List ChangeInfo)
    (hnod : (entries.map (fun c => c.chnum)).Nodup) :
    entries.foldl (fun m c => mapSet m c.chnum ⟨c.description, mkPendingGroup c⟩) []
      = entries.map (fun c => (c.chnum, (⟨c.description, mkPendingGroup c⟩ : PendingEntry))) := by
  exact foldl_mapSet_eq_map
    (fun c => (c.chnum, (⟨c.description, mkPendingGroup c⟩ : PendingEntry))) entries hnod

theorem updateStatusModel_defaultGroup (cfg : ModelConfig)
    (parsedLines : List (Option ChangeInfo)) (shelved opened : List Resource) :
    (updateStatusModel cfg parsedLines shelved opened).1.defaultGroup
      = some ⟨"default", "Default Changelist",
          (shelved ++ opened).filter (fun r => r.change.startsWith "default")⟩ := by
  rw [updateStatusModel_eq]
  dsimp only
  rw [bucketResources_default]

theorem updateStatusModel_skeleton (cfg : ModelConfig)
    (parsedLines : List (Option ChangeInfo)) (shelved opened : List Resource)
    (hnod : ((updateStatusEntries cfg parsedLines).1.map (fun c => c.chnum)).Nodup) :
    (updateStatusModel cfg parsedLines shelved opened).1.pendingGroups.map pgSkeleton
      = (updateStatusEntries cfg parsedLines).1.map
          (fun c => (c.chnum, c.description, "pending:" ++ toString c.chnum,
            "#" ++ toString c.chnum ++ ": " ++ c.description)) := by
  rw [updateStatusModel_eq]
  dsimp only
  rw [applyPendings_skeleton, entries_foldl_mapSet_eq_map _ hnod, List.map_map]
  rfl

theorem updateStatusModel_keys (cfg : ModelConfig)
    (parsedLines : List (Option ChangeInfo)) (shelved opened : List Resource)
    (hnod : ((updateStatusEntries cfg parsedLines).1.map (fun c => c.chnum)).Nodup) :
    (updateStatusModel cfg parsedLines shelved opened).1.pendingGroups.map (fun p => p.1)
      = (updateStatusEntries cfg parsedLines).1.map (fun c => c.chnum) := by
  rw [updateStatusModel_eq]
  dsimp only
  rw [applyPendings_keys, entries_foldl_mapSet_eq_map _ hnod, List.map_map]
  rfl

theorem updateStatusModel_statesAt (cfg : ModelConfig)
    (parsedLines : List (Option ChangeInfo)) (shelved opened : List Resource)
    (hnod : ((updateStatusEntries cfg parsedLines).1.map (fun c => c.chnum)).Nodup)
    (k : Int) (hk : k ∈ (updateStatusEntries cfg parsedLines).1.map (fun c => c.chnum)) :
    pgStatesAt (updateStatusModel cfg parsedLines shelved opened).1.pendingGroups k
      = some ((shelved ++ opened).filter
          (fun r => !r.change.startsWith "default" && (jsParseInt r.change == some k))) := by
  rw [updateStatusModel_eq]
  dsimp only
  rw [entries_foldl_mapSet_eq_map _ hnod]
  have hpgkeys : ((updateStatusEntries cfg parsedLines).1.map
        (fun c => (c.chnum, (⟨c.description, mkPendingGroup c⟩ : PendingEntry)))).map
        (fun p => p.1)
      = (updateStatusEntries cfg parsedLines).1.map (fun c => c.chnum) := by
    rw [List.map_map]
    rfl
  by_cases hb : (some k) ∈ (bucketResources (shelved ++ opened)).2.map (fun q => q.1)
  · have hmem := assoc_mem_of_key_mem (bucketResources (shelved ++ opened)).2 (some k) hb
    rw [applyPendings_statesAt_of_mem _ k _ _ _ (bucketResources_keys_nodup _) hmem
      (by rw [hpgkeys]; exact hk)]
    rw [bucketResources_get]
  · rw [applyPendings_statesAt_of_not_mem _ k _ _ hb]
    obtain ⟨c, hc, hck⟩ := List.mem_map.mp hk
    have hcmem : (k, (⟨c.description, mkPendingGroup c⟩ : PendingEntry))
        ∈ (updateStatusEntries cfg parsedLines).1.map
            (fun c => (c.chnum, (⟨c.description, mkPendingGroup c⟩ : PendingEntry))) := by
      rcases hck with rfl
      exact List.mem_map_of_mem _ hc
    rw [pgStatesAt,
      assoc_find_of_nodup _ (by rw [hpgkeys]; exact hnod) k _ hcmem]
    have hfilter : (shelved ++ opened).filter
        (fun r => !r.change.startsWith "default" && (jsParseInt r.change == some k)) = [] := by
      rw [List.filter_eq_nil_iff]
      intro r hr hpred
      exact hb ((mem_keys_bucketResources (shelved ++ opened) (some k)).mpr ⟨r, hr, hpred⟩)
    rw [hfilter]
    rfl

theorem updateStatusModel_logs (cfg : ModelConfig)
    (parsedLines : List (Option ChangeInfo)) (shelved opened : List Resource)
    (hnod : ((updateStatusEntries cfg parsedLines).1.map (fun c => c.chnum)).Nodup) :
    (updateStatusModel cfg parsedLines shelved opened).2
      = (orphanKeys ((updateStatusEntries cfg parsedLines).1.map (fun c => c.chnum))
          (updateStatusEntries cfg parsedLines).2
          ((bucketResources (shelved ++ opened)).2.map (fun q => q.1))).map orphanMsg := by
  rw [updateStatusModel_eq]
  dsimp only
  rw [applyPendings_logs, entries_foldl_mapSet_eq_map _ hnod, List.map_map]
  rfl

theorem ResourceGroupsRead_eq (hideEmpty : Bool) (s : ModelState) :
    ResourceGroupsRead hideEmpty s
      = ((match s.defaultGroup with
            | some g => [g]
            | none => [])
          ++ (s.pendingGroups.filter
              (fun p => !(hideEmpty && p.2.group.resourceStates.length == 0))).map
              (fun p => p.2.group),
          (s.pendingGroups.filter
              (fun p => hideEmpty && p.2.group.resourceStates.length == 0)).map
            (fun p => p.2.group)) := by
  unfold ResourceGroupsRead
  suffices h : ∀ (l : List (Int × PendingEntry)) (acc : List GroupData × List GroupData),
      l.foldl (fun acc p =>
          if hideEmpty && p.2.group.resourceStates.length == 0 then
            (acc.1, acc.2 ++ [p.2.group])
          else (acc.1 ++ [p.2.group], acc.2)) acc
        = (acc.1 ++ (l.filter
              (fun p => !(hideEmpty && p.2.group.resourceStates.length == 0))).map
              (fun p => p.2.group),
            acc.2 ++ (l.filter
              (fun p => hideEmpty && p.2.group.resourceStates.length == 0)).map
              (fun p => p.2.group)) by
    rw [h]
    simp
  intro l
  induction l with
  | nil => intro acc; simp
  | cons p ps ih =>
    intro acc
    by_cases hp : hideEmpty && p.2.group.resourceStates.length == 0
    · simp only [List.foldl_cons, hp, if_pos, List.filter_cons, ite_true, Bool.not_true,
        Bool.false_eq_true, ite_false]
      rw [ih]
      simp [List.append_assoc]
    · simp only [List.foldl_cons, hp, Bool.false_eq_true, if_neg, ite_false,
        List.filter_cons, Bool.not_false, ite_true]
      rw [ih]
      simp [List.append_assoc]

theorem ResourceGroups_false_eq (s : ModelState) (dg : GroupData)
    (hdg : s.defaultGroup = some dg) :
    ResourceGroups false s = dg :: s.pendingGroups.map (fun p => p.2.group) := by
  rw [ResourceGroups, ResourceGroupsRead_eq, hdg]
  simp

/-- A model state holding one empty pending changelist group,
as `updateStatus` produces for a changelist with no files. -/
def c10state : ModelState :=
  ⟨some ⟨"default", "Default Changelist", []⟩,
    [(1, ⟨"things to do", ⟨"pending:1", "#1: things to do", []⟩⟩)]⟩

/-- C10 counterexample: with `hideEmptyChangelists` enabled, reading the group
list disposes the empty pending group (`value.group.dispose()`,
`Model.ts` line 72), so the getter is not free of side effects for every value
of that setting. -/
theorem resourceGroups_read_disposes : disposedOnRead true c10state ≠ [] := by decide

/-- C10 (amended): with `hideEmptyChangelists` disabled the getter is a pure
projection of the model state — it disposes nothing and returns the default
group followed by every pending group in insertion order, so repeated reads
with unchanged state return the same list; with the setting enabled, reading
disposes exactly the empty pending groups as a side effect. -/
theorem resourceGroups_read_pure_when_not_hiding (s : ModelState) :
    disposedOnRead false s = [] ∧
    ResourceGroups false s
      = (match s.defaultGroup with
          | some g => [g]
          | none => []) ++ s.pendingGroups.map (fun p => p.2.group) ∧
    disposedOnRead true s
      = (s.pendingGroups.filter
          (fun p => p.2.group.resourceStates.length == 0)).map (fun p => p.2.group) := by
  refine ⟨?_, ?_, ?_⟩ <;>
    simp [disposedOnRead, ResourceGroups, ResourceGroupsRead_eq]

/-- Configuration used by the refresh counterexample. -/
def c4cfg : ModelConfig := ⟨none, none, false, false, false, 32⟩

/-- Displayed state before the failing refresh: one pending group. -/
def c4prior : ModelState :=
  ⟨some ⟨"default", "Default Changelist", []⟩,
    [(1, ⟨"work in progress", ⟨"pending:1", "#1: work in progress", []⟩⟩)]⟩

/-- C4 counterexample: `Refresh` calls `clean()` before any external command
(`Model.ts` line 110), so when a command then fails the previously displayed
groups are already gone — the state after the failed refresh differs from the
state before it. -/
theorem refresh_failure_counterexample :
    RefreshModel c4cfg (Except.error "spawn p4 ENOENT") c4prior ≠ c4prior := by decide

/-- C4 (amended): a refresh disposes and clears all displayed groups before
running any external command, so after a refresh whose command fails the
provider shows the cleared state (no default group, no pending groups), not
the state from before the refresh. -/
theorem refresh_failure_state (cfg : ModelConfig) (e : String) (s : ModelState) :
    RefreshModel cfg (Except.error e) s = ⟨none, []⟩ := rfl

/-- C9: for a group whose extracted changelist number is `"default"`, each of
the shelve, unshelve and delete-shelved operations raises its validation
error before any external command is recorded. -/
theorem default_changelist_guards (id : String) (revert userConfirms : Bool)
    (h : jsExtractChnum id = "default") :
    ShelveChangelist id revert = Except.error "Cannot shelve the default changelist" ∧
    UnshelveChangelist id = Except.error "Cannot unshelve the default changelist" ∧
    DeleteShelvedChangelist id userConfirms
      = Except.error "Cannot delete shelved files from the default changelist" := by
  refine ⟨?_, ?_, ?_⟩ <;> simp [ShelveChangelist, UnshelveChangelist,
    DeleteShelvedChangelist, h]

/-- Witness for C9 at the concrete group id `"default"`. -/
theorem default_changelist_guards_witness :
    jsExtractChnum "default" = "default" ∧
      (ShelveChangelist "default" true
          = Except.error "Cannot shelve the default changelist" ∧
        UnshelveChangelist "default"
          = Except.error "Cannot unshelve the default changelist" ∧
        DeleteShelvedChangelist "default" true
          = Except.error "Cannot delete shelved files from the default changelist") :=
  ⟨by decide, default_changelist_guards "default" true true (by decide)⟩

/-- Configuration with the `hideShelvedFiles` key set and
`hideNonWorkspaceFiles` unset. -/
def c3on : ModelConfig := ⟨none, none, false, true, false, 32⟩

/-- Configuration with `hideNonWorkspaceFiles` set and the `hideShelvedFiles`
key unset. -/
def c3off : ModelConfig := ⟨none, none, true, false, false, 32⟩

/-- C3: whether the shelved-file fetch happens is decided by the
`hideNonWorkspaceFiles` key, not the `hideShelvedFiles` key — the
`hideShelvedFiles` method (`Model.ts` lines 730-732) reads the wrong
configuration item.  With `hideShelvedFiles = true` and
`hideNonWorkspaceFiles = false` the fetch still runs; with
`hideShelvedFiles = false` and `hideNonWorkspaceFiles = true` it is
suppressed. -/
theorem shelvedFetch_reads_wrong_key :
    (c3on.hideShelvedFilesSetting = true ∧ shelvedFetchPerformed c3on = true) ∧
    (c3off.hideShelvedFilesSetting = false ∧ shelvedFetchPerformed c3off = false) := by
  decide

/-- C7: on a result sequence containing a hole (`undefined` entry), the
shelved-resource builder completes and yields a resource with no local file,
but the opened-resource builder throws a `TypeError` in
`getResourceFromFileInfo` because it reads `info["clientFile"]` without
checking `info` — the opened-file path does not tolerate holes. -/
theorem fstat_holes_behaviour :
    getShelvedResources [⟨1, "edit", "//depot/new.txt"⟩] [none]
      = [⟨some "//depot/new.txt", none, "1", true, some "edit", none, none⟩] ∧
    getDepotOpenedResources false (fun _ => true) [none]
      = Except.error "TypeError: cannot read clientFile of undefined" := by
  constructor
  · rfl
  · rfl

theorem getDepotOpenedResources_mem (hideNonWS : Bool) (inW : Option String → Bool) :
    ∀ (fs : List (Option FstatRecord)) (out : List (Option Resource)),
      getDepotOpenedResources hideNonWS inW fs = Except.ok out →
      ∀ x ∈ out, ∃ info ∈ fs, getResourceFromFileInfo hideNonWS inW info = Except.ok x := by
  intro fs
  induction fs with
  | nil =>
    intro out h x hx
    simp only [getDepotOpenedResources] at h
    injection h with h
    subst h
    cases hx
  | cons info rest ih =>
    intro out h x hx
    cases hr : getResourceFromFileInfo hideNonWS inW info with
    | error e =>
      simp only [getDepotOpenedResources, hr] at h
      cases h
    | ok y =>
      cases hrest : getDepotOpenedResources hideNonWS inW rest with
      | error e =>
        simp only [getDepotOpenedResources, hr, hrest] at h
        cases h
      | ok ys =>
        simp only [getDepotOpenedResources, hr, hrest] at h
        injection h with h
        subst h
        rcases List.mem_cons.mp hx with hxy | hxys
        · exact ⟨info, List.mem_cons_self _ _, hxy ▸ hr⟩
        · obtain ⟨i2, hi2, hfi2⟩ := ih ys hrest x hxys
          exact ⟨i2, List.mem_cons_of_mem _ hi2, hfi2⟩

theorem getResourceFromFileInfo_flag (hideNonWS : Bool) (inW : Option String → Bool)
    (info : Option FstatRecord) (x : Option Resource) (r : Resource)
    (h : getResourceFromFileInfo hideNonWS inW info = Except.ok x) (hx : x = some r) :
    r.isShelved = false := by
  cases info with
  | none => simp [getResourceFromFileInfo] at h
  | some rec =>
    rw [getResourceFromFileInfo] at h
    by_cases hc : hideNonWS && !inW (rec.get "clientFile")
    · rw [if_pos hc] at h
      injection h with h2
      rw [← h2] at hx
      cases hx
    · rw [if_neg hc] at h
      injection h with h2
      rw [← h2] at hx
      injection hx with hx2
      rw [← hx2]

theorem getShelvedResources_flag (files : List ShelvedFileInfo)
    (fstatInfo : List (Option FstatRecord)) :
    ∀ r ∈ getShelvedResources files fstatInfo, r.isShelved = true := by
  intro r hr
  obtain ⟨p, hp, hpr⟩ := List.mem_map.mp hr
  rw [← hpr]

/-- C5: within every changelist's resource list produced by a reconciliation,
the shelved resources come first and the open resources after, each sub-list
in its own query order: every pending bucket equals the shelved builder output
filtered to that changelist followed by the opened builder output filtered to
it (and likewise for the default bucket), every shelved-builder resource has
`isShelved = true`, and every opened-builder resource has
`isShelved = false`. -/
theorem shelved_before_open (cfg : ModelConfig) (parsedLines : List (Option ChangeInfo))
    (files : List ShelvedFileInfo) (fstatS fstatO : List (Option FstatRecord))
    (inW : Option String → Bool) (rlist : List Resource)
    (hok : getDepotOpenedResources false inW fstatO = Except.ok (rlist.map some))
    (hnod : ((updateStatusEntries cfg parsedLines).1.map (fun c => c.chnum)).Nodup) :
    (∀ r ∈ getShelvedResources files fstatS, r.isShelved = true) ∧
    (∀ r ∈ rlist, r.isShelved = false) ∧
    (∀ k vs,
      pgStatesAt (updateStatusModel cfg parsedLines (getShelvedResources files fstatS)
          rlist).1.pendingGroups k = some vs →
      vs = (getShelvedResources files fstatS).filter
            (fun r => !r.change.startsWith "default" && (jsParseInt r.change == some k))
          ++ rlist.filter
            (fun r => !r.change.startsWith "default" && (jsParseInt r.change == some k))) ∧
    ((updateStatusModel cfg parsedLines (getShelvedResources files fstatS)
        rlist).1.defaultGroup
      = some ⟨"default", "Default Changelist",
          (getShelvedResources files fstatS).filter
              (fun r => r.change.startsWith "default")
            ++ rlist.filter (fun r => r.change.startsWith "default")⟩) := by
  refine ⟨getShelvedResources_flag files fstatS, ?_, ?_, ?_⟩
  · intro r hr
    obtain ⟨info, hinfo, hfr⟩ := getDepotOpenedResources_mem false inW fstatO
      (rlist.map some) hok (some r) (List.mem_map_of_mem some hr)
    exact getResourceFromFileInfo_flag false inW info (some r) r hfr rfl
  · intro k vs hvs
    have hkmem : k ∈ (updateStatusModel cfg parsedLines (getShelvedResources files fstatS)
        rlist).1.pendingGroups.map (fun p => p.1) := by
      by_contra hkn
      rw [(pgStatesAt_eq_none_iff _ k).mpr hkn] at hvs
      cases hvs
    rw [updateStatusModel_keys cfg parsedLines _ _ hnod] at hkmem
    rw [updateStatusModel_statesAt cfg parsedLines _ _ hnod k hkmem] at hvs
    injection hvs with hvs
    rw [← hvs, List.filter_append]
  · rw [updateStatusModel_defaultGroup, List.filter_append]

/-- C2: after a reconciliation run with `hideEmptyChangelists` disabled, the
provider exposes exactly one group per non-ignored pending changelist entry
plus the default group, and every surviving entry — also one with zero
attached resources — contributes its `pending:<chnum>` group. -/
theorem resourceGroups_count (cfg : ModelConfig) (parsedLines : List (Option ChangeInfo))
    (shelved opened : List Resource)
    (hhe : cfg.hideEmptyChangelists = false)
    (hnod : ((updateStatusEntries cfg parsedLines).1.map (fun c => c.chnum)).Nodup) :
    (ResourceGroups cfg.hideEmptyChangelists
        (updateStatusModel cfg parsedLines shelved opened).1).length
      = (updateStatusEntries cfg parsedLines).1.length + 1 ∧
    ∀ c ∈ (updateStatusEntries cfg parsedLines).1,
      ("pending:" ++ toString c.chnum)
        ∈ (ResourceGroups cfg.hideEmptyChangelists
            (updateStatusModel cfg parsedLines shelved opened).1).map (fun g => g.id) := by
  rw [hhe]
  have hdg := updateStatusModel_defaultGroup cfg parsedLines shelved opened
  rw [ResourceGroups_false_eq _ _ hdg]
  constructor
  · simp only [List.length_cons, List.length_map]
    have h := congrArg List.length
      (updateStatusModel_skeleton cfg parsedLines shelved opened hnod)
    simp only [List.length_map] at h
    omega
  · intro c hc
    have hids : (updateStatusModel cfg parsedLines shelved opened).1.pendingGroups.map
          (fun p => p.2.group.id)
        = (updateStatusEntries cfg parsedLines).1.map
            (fun c => "pending:" ++ toString c.chnum) := by
      have h := congrArg (List.map (fun q : Int × String × String × String => q.2.2.1))
        (updateStatusModel_skeleton cfg parsedLines shelved opened hnod)
      rw [List.map_map, List.map_map] at h
      exact h
    simp only [List.map_cons, List.mem_cons]
    right
    rw [List.map_map]
    have hcomp : ((fun g : GroupData => g.id) ∘ (fun p : Int × PendingEntry => p.2.group))
        = (fun p : Int × PendingEntry => p.2.group.id) := rfl
    rw [hcomp, hids]
    exact List.mem_map_of_mem _ hc

/-- Configuration with every option unset, as in a fresh workspace. -/
def wcfg : ModelConfig := ⟨none, none, false, false, false, 32⟩

/-- Two parsed pending changelists plus one malformed line; changelist 2 has
no files. -/
def wlines : List (Option ChangeInfo) := [some ⟨2, "second"⟩, some ⟨1, "first"⟩, none]

/-- An fstat record for one opened file in changelist 1. -/
def wrecord : FstatRecord :=
  ⟨[("depotFile", "//depot/a.txt"), ("clientFile", "/ws/a.txt"), ("change", "1"),
    ("action", "edit")]⟩

/-- The resource the opened-file builder produces from `wrecord`. -/
def wopened : Resource :=
  ⟨some "//depot/a.txt", some "/ws/a.txt", "1", false, some "edit", none, none⟩

/-- Witness for C2 at a concrete configuration and query output: two surviving
entries (one with zero files) give three groups. -/
theorem resourceGroups_count_witness :
    wcfg.hideEmptyChangelists = false ∧
    ((updateStatusEntries wcfg wlines).1.map (fun c => c.chnum)).Nodup ∧
    ((ResourceGroups wcfg.hideEmptyChangelists
        (updateStatusModel wcfg wlines [] [wopened]).1).length
      = (updateStatusEntries wcfg wlines).1.length + 1 ∧
    ∀ c ∈ (updateStatusEntries wcfg wlines).1,
      ("pending:" ++ toString c.chnum)
        ∈ (ResourceGroups wcfg.hideEmptyChangelists
            (updateStatusModel wcfg wlines [] [wopened]).1).map (fun g => g.id)) :=
  ⟨by decide, by decide,
    resourceGroups_count wcfg wlines [] [wopened] (by decide) (by decide)⟩

/-- Witness for C5 at a concrete configuration and query output. -/
theorem shelved_before_open_witness :
    getDepotOpenedResources false (fun _ => true) [some wrecord]
        = Except.ok ([wopened].map some) ∧
    ((updateStatusEntries wcfg wlines).1.map (fun c => c.chnum)).Nodup ∧
    ((∀ r ∈ getShelvedResources [] [], r.isShelved = true) ∧
      (∀ r ∈ [wopened], r.isShelved = false) ∧
      (∀ k vs,
        pgStatesAt (updateStatusModel wcfg wlines (getShelvedResources [] [])
            [wopened]).1.pendingGroups k = some vs →
        vs = (getShelvedResources [] []).filter
              (fun r => !r.change.startsWith "default" && (jsParseInt r.change == some k))
            ++ [wopened].filter
              (fun r => !r.change.startsWith "default" && (jsParseInt r.change == some k))) ∧
      ((updateStatusModel wcfg wlines (getShelvedResources [] [])
          [wopened]).1.defaultGroup
        = some ⟨"default", "Default Changelist",
            (getShelvedResources [] []).filter (fun r => r.change.startsWith "default")
              ++ [wopened].filter (fun r => r.change.startsWith "default")⟩)) :=
  ⟨rfl, by decide,
    shelved_before_open wcfg wlines [] [] [some wrecord] (fun _ => true) [wopened]
      rfl (by decide)⟩

/-- The ordered, parsed changelist entries before the prefix filter
(`changeInfos` at `Model.ts` lines 772-774, after the optional reversal at
line 767). -/
def parsedChangeInfos (cfg : ModelConfig) (parsedLines : List (Option ChangeInfo)) :
    List ChangeInfo :=
  (if getChangelistOrder cfg == "ascending" then parsedLines.reverse
   else parsedLines).filterMap id

theorem updateStatusEntries_eq (cfg : ModelConfig)
    (parsedLines : List (Option ChangeInfo)) :
    updateStatusEntries cfg parsedLines
      = (if jsTruthyStr cfg.ignoredChangelistPrefixSetting then
            (parsedChangeInfos cfg parsedLines).filter
              (fun c => !jsStartsWithOpt c.description cfg.ignoredChangelistPrefixSetting)
          else parsedChangeInfos cfg parsedLines,
          ((parsedChangeInfos cfg parsedLines).filter
              (fun c => jsStartsWithOpt c.description cfg.ignoredChangelistPrefixSetting)).map
            (fun c => c.chnum)) := rfl

/-- C6: with a non-empty `ignoredChangelistPrefix` configured, a pending
changelist whose description starts with the prefix produces no resource
group, resources carrying its changelist number are attached to no group, and
its number is never among the orphan-logged keys; the logged diagnostics are
exactly the orphan messages for bucket keys matching neither a surviving nor
an ignored entry, and such a key is logged while its resources are attached to
no group — the run still completes with a state. -/
theorem ignored_prefix_behaviour (cfg : ModelConfig)
    (parsedLines : List (Option ChangeInfo)) (shelved opened : List Resource) (s : String)
    (hpre : cfg.ignoredChangelistPrefixSetting = some s) (hs : s ≠ "")
    (hnodAll : ((parsedChangeInfos cfg parsedLines).map (fun c => c.chnum)).Nodup) :
    (∀ c ∈ parsedChangeInfos cfg parsedLines, c.description.startsWith s = true →
      c.chnum ∉ (updateStatusModel cfg parsedLines shelved opened).1.pendingGroups.map
          (fun p => p.1) ∧
      pgStatesAt (updateStatusModel cfg parsedLines shelved opened).1.pendingGroups
          c.chnum = none ∧
      some c.chnum ∉ orphanKeys
          ((updateStatusEntries cfg parsedLines).1.map (fun c => c.chnum))
          (updateStatusEntries cfg parsedLines).2
          ((bucketResources (shelved ++ opened)).2.map (fun q => q.1))) ∧
    ((updateStatusModel cfg parsedLines shelved opened).2
      = (orphanKeys ((updateStatusEntries cfg parsedLines).1.map (fun c => c.chnum))
          (updateStatusEntries cfg parsedLines).2
          ((bucketResources (shelved ++ opened)).2.map (fun q => q.1))).map orphanMsg) ∧
    (∀ k, some k ∈ (bucketResources (shelved ++ opened)).2.map (fun q => q.1) →
      k ∉ (updateStatusEntries cfg parsedLines).1.map (fun c => c.chnum) →
      k ∉ (updateStatusEntries cfg parsedLines).2 →
      (some k ∈ orphanKeys
          ((updateStatusEntries cfg parsedLines).1.map (fun c => c.chnum))
          (updateStatusEntries cfg parsedLines).2
          ((bucketResources (shelved ++ opened)).2.map (fun q => q.1)) ∧
        pgStatesAt (updateStatusModel cfg parsedLines shelved opened).1.pendingGroups
          k = none)) := by
  have hsurv : (updateStatusEntries cfg parsedLines).1
      = (parsedChangeInfos cfg parsedLines).filter
          (fun c => !(c.description.startsWith s)) := by
    rw [updateStatusEntries_eq]
    dsimp only
    rw [hpre]
    simp [jsTruthyStr, jsStartsWithOpt, hs]
  have hign : (updateStatusEntries cfg parsedLines).2
      = ((parsedChangeInfos cfg parsedLines).filter
          (fun c => c.description.startsWith s)).map (fun c => c.chnum) := by
    rw [updateStatusEntries_eq]
    dsimp only
    rw [hpre]
    simp [jsStartsWithOpt]
  have hnodS : ((updateStatusEntries cfg parsedLines).1.map (fun c => c.chnum)).Nodup := by
    rw [hsurv]
    exact List.Nodup.sublist ((List.filter_sublist _).map _) hnodAll
  refine ⟨?_, updateStatusModel_logs cfg parsedLines shelved opened hnodS, ?_⟩
  · intro c hc hstart
    have hnotin : c.chnum
        ∉ (updateStatusEntries cfg parsedLines).1.map (fun c => c.chnum) := by
      rw [hsurv]
      intro hmem
      obtain ⟨c2, hc2, hcc⟩ := List.mem_map.mp hmem
      have hc2p := List.mem_of_mem_filter hc2
      have hpred := List.of_mem_filter hc2
      have heq : c2 = c := List.inj_on_of_nodup_map hnodAll hc2p hc hcc
      rw [heq] at hpred
      simp [hstart] at hpred
    refine ⟨?_, ?_, ?_⟩
    · rw [updateStatusModel_keys cfg parsedLines shelved opened hnodS]
      exact hnotin
    · rw [pgStatesAt_eq_none_iff, updateStatusModel_keys cfg parsedLines shelved opened hnodS]
      exact hnotin
    · intro hmemOK
      have hpred := List.of_mem_filter hmemOK
      have hinIgn : c.chnum ∈ (updateStatusEntries cfg parsedLines).2 := by
        rw [hign]
        exact List.mem_map_of_mem _ (List.mem_filter.mpr ⟨hc, hstart⟩)
      have hcontains : ((updateStatusEntries cfg parsedLines).2).contains c.chnum = true :=
        List.elem_iff.mpr hinIgn
      have hpred2 : (!((updateStatusEntries cfg parsedLines).1.map
            (fun c => c.chnum)).any (fun x => x == c.chnum)
          && !((updateStatusEntries cfg parsedLines).2).contains c.chnum) = true := hpred
      rw [hcontains] at hpred2
      simp at hpred2
  · intro k hbk hks hki
    have hany : (((updateStatusEntries cfg parsedLines).1.map (fun c => c.chnum)).any
        (fun x => x == k)) = false := by
      rw [List.any_eq_false]
      intro x hx
      simp only [beq_iff_eq]
      intro heq
      exact hks (heq ▸ hx)
    have hcontains : ((updateStatusEntries cfg parsedLines).2).contains k = false := by
      by_cases h : ((updateStatusEntries cfg parsedLines).2).contains k = true
      · exact absurd (List.elem_iff.mp h) hki
      · simpa using h
    refine ⟨?_, ?_⟩
    · refine List.mem_filter.mpr ⟨hbk, ?_⟩
      show (!((updateStatusEntries cfg parsedLines).1.map (fun c => c.chnum)).any
            (fun x => x == k)
          && !((updateStatusEntries cfg parsedLines).2).contains k) = true
      rw [hany, hcontains]
      rfl
    · rw [pgStatesAt_eq_none_iff, updateStatusModel_keys cfg parsedLines shelved opened hnodS]
      exact hks

theorem filterMap_reverse_eq {α β : Type} (f : α → Option β) (l : List α) :
    l.reverse.filterMap f = (l.filterMap f).reverse := by
  induction l with
  | nil => rfl
  | cons a l ih =>
    cases hfa : f a <;>
      simp [hfa, ih, List.filterMap_append, List.filterMap_cons]

/-- C8: after reconciliation the provider's group list starts with the
default group, followed by the pending groups in map order; given the server
returns `p4 changes` lines sorted by descending changelist number, the
pending-group keys are ascending when `changelistOrder` is `"ascending"` and
descending otherwise (the default), and every pending group's id is
`pending:<its key>`. -/
theorem resourceGroups_order (cfg : ModelConfig) (parsedLines : List (Option ChangeInfo))
    (shelved opened : List Resource)
    (hsort : ((parsedLines.filterMap id).map (fun c => c.chnum)).Pairwise
      (fun a b => b < a)) :
    (∃ rest, ResourceGroups cfg.hideEmptyChangelists
          (updateStatusModel cfg parsedLines shelved opened).1
        = ⟨"default", "Default Changelist",
            (shelved ++ opened).filter (fun r => r.change.startsWith "default")⟩ :: rest ∧
      rest = ((updateStatusModel cfg parsedLines shelved opened).1.pendingGroups.filter
          (fun p => !(cfg.hideEmptyChangelists && p.2.group.resourceStates.length == 0))).map
          (fun p => p.2.group)) ∧
    (((updateStatusModel cfg parsedLines shelved opened).1.pendingGroups.map
        (fun p => p.1)).Pairwise
      (fun a b => if getChangelistOrder cfg == "ascending" then a < b else b < a)) ∧
    (∀ p ∈ (updateStatusModel cfg parsedLines shelved opened).1.pendingGroups,
      p.2.group.id = "pending:" ++ toString p.1) := by
  have hrel : ((parsedChangeInfos cfg parsedLines).map (fun c => c.chnum)).Pairwise
      (fun a b => if getChangelistOrder cfg == "ascending" then a < b else b < a) := by
    by_cases hasc : (getChangelistOrder cfg == "ascending") = true
    · unfold parsedChangeInfos
      rw [if_pos hasc, filterMap_reverse_eq, List.map_reverse, List.pairwise_reverse]
      refine hsort.imp ?_
      intro a b h
      rw [if_pos hasc]
      exact h
    · unfold parsedChangeInfos
      rw [if_neg hasc]
      refine hsort.imp ?_
      intro a b h
      rw [if_neg hasc]
      exact h
  have hsub : List.Sublist (updateStatusEntries cfg parsedLines).1
      (parsedChangeInfos cfg parsedLines) := by
    rw [updateStatusEntries_eq]
    dsimp only
    by_cases ht : jsTruthyStr cfg.ignoredChangelistPrefixSetting = true
    · rw [if_pos ht]
      exact List.filter_sublist _
    · rw [if_neg ht]
  have hkeysRel : ((updateStatusEntries cfg parsedLines).1.map (fun c => c.chnum)).Pairwise
      (fun a b => if getChangelistOrder cfg == "ascending" then a < b else b < a) :=
    List.Pairwise.sublist (hsub.map _) hrel
  have hnod : ((updateStatusEntries cfg parsedLines).1.map (fun c => c.chnum)).Nodup := by
    refine List.Pairwise.imp ?_ hkeysRel
    intro a b hab
    by_cases hasc : (getChangelistOrder cfg == "ascending") = true
    · rw [if_pos hasc] at hab
      exact ne_of_lt hab
    · rw [if_neg hasc] at hab
      exact (ne_of_lt hab).symm
  refine ⟨⟨((updateStatusModel cfg parsedLines shelved opened).1.pendingGroups.filter
      (fun p => !(cfg.hideEmptyChangelists && p.2.group.resourceStates.length == 0))).map
      (fun p => p.2.group), ?_, rfl⟩, ?_, ?_⟩
  · rw [ResourceGroups, ResourceGroupsRead_eq, updateStatusModel_defaultGroup]
    rfl
  · rw [updateStatusModel_keys cfg parsedLines shelved opened hnod]
    exact hkeysRel
  · intro p hp
    have hpmem : pgSkeleton p
        ∈ ((updateStatusModel cfg parsedLines shelved opened).1.pendingGroups.map
            pgSkeleton) :=
      List.mem_map_of_mem _ hp
    rw [updateStatusModel_skeleton cfg parsedLines shelved opened hnod] at hpmem
    obtain ⟨c, hc, hcp⟩ := List.mem_map.mp hpmem
    unfold pgSkeleton at hcp
    simp only [Prod.mk.injEq] at hcp
    obtain ⟨hk, _, hid, _⟩ := hcp
    rw [← hid, ← hk]

/-- Configuration with `ignoredChangelistPrefix` set to `"ignore:"`. -/
def c6cfg : ModelConfig := ⟨none, some "ignore:", false, false, false, 32⟩

/-- Two pending changelists: number 1 carries the ignored prefix. -/
def c6lines : List (Option ChangeInfo) :=
  [some ⟨2, "noignore:me"⟩, some ⟨1, "ignore:me"⟩]

/-- An opened resource belonging to the ignored changelist 1. -/
def c6res : Resource :=
  ⟨some "//depot/b.txt", some "/ws/b.txt", "1", false, some "edit", none, none⟩

/-- Witness for C6 at the spec's Scenario D inputs. -/
theorem ignored_prefix_behaviour_witness :
    c6cfg.ignoredChangelistPrefixSetting = some "ignore:" ∧ "ignore:" ≠ "" ∧
    ((parsedChangeInfos c6cfg c6lines).map (fun c => c.chnum)).Nodup ∧
    ((∀ c ∈ parsedChangeInfos c6cfg c6lines, c.description.startsWith "ignore:" = true →
      c.chnum ∉ (updateStatusModel c6cfg c6lines [] [c6res]).1.pendingGroups.map
          (fun p => p.1) ∧
      pgStatesAt (updateStatusModel c6cfg c6lines [] [c6res]).1.pendingGroups
          c.chnum = none ∧
      some c.chnum ∉ orphanKeys
          ((updateStatusEntries c6cfg c6lines).1.map (fun c => c.chnum))
          (updateStatusEntries c6cfg c6lines).2
          ((bucketResources ([] ++ [c6res])).2.map (fun q => q.1))) ∧
    ((updateStatusModel c6cfg c6lines [] [c6res]).2
      = (orphanKeys ((updateStatusEntries c6cfg c6lines).1.map (fun c => c.chnum))
          (updateStatusEntries c6cfg c6lines).2
          ((bucketResources ([] ++ [c6res])).2.map (fun q => q.1))).map orphanMsg) ∧
    (∀ k, some k ∈ (bucketResources ([] ++ [c6res])).2.map (fun q => q.1) →
      k ∉ (updateStatusEntries c6cfg c6lines).1.map (fun c => c.chnum) →
      k ∉ (updateStatusEntries c6cfg c6lines).2 →
      (some k ∈ orphanKeys
          ((updateStatusEntries c6cfg c6lines).1.map (fun c => c.chnum))
          (updateStatusEntries c6cfg c6lines).2
          ((bucketResources ([] ++ [c6res])).2.map (fun q => q.1)) ∧
        pgStatesAt (updateStatusModel c6cfg c6lines [] [c6res]).1.pendingGroups
          k = none))) :=
  ⟨rfl, by decide, by decide,
    ignored_prefix_behaviour c6cfg c6lines [] [c6res] "ignore:" rfl (by decide) (by decide)⟩

/-- Witness for C8 at a concrete descending changelist listing. -/
theorem resourceGroups_order_witness :
    ((wlines.filterMap id).map (fun c => c.chnum)).Pairwise (fun a b => b < a) ∧
    ((∃ rest, ResourceGroups wcfg.hideEmptyChangelists
          (updateStatusModel wcfg wlines [] [wopened]).1
        = ⟨"default", "Default Changelist",
            ([] ++ [wopened]).filter (fun r => r.change.startsWith "default")⟩ :: rest ∧
      rest = ((updateStatusModel wcfg wlines [] [wopened]).1.pendingGroups.filter
          (fun p => !(wcfg.hideEmptyChangelists && p.2.group.resourceStates.length == 0))).map
          (fun p => p.2.group)) ∧
    (((updateStatusModel wcfg wlines [] [wopened]).1.pendingGroups.map
        (fun p => p.1)).Pairwise
      (fun a b => if getChangelistOrder wcfg == "ascending" then a < b else b < a)) ∧
    (∀ p ∈ (updateStatusModel wcfg wlines [] [wopened]).1.pendingGroups,
      p.2.group.id = "pending:" ++ toString p.1)) :=
  ⟨by decide, resourceGroups_order wcfg wlines [] [wopened] (by decide)⟩
